import Mathlib

/-
Verification of the function-field order and differential layer
(sage/rings/function_field/order.py and differential.py).

The development shallowly embeds the code.  Polynomial and rational-function
arithmetic over the constant field (which the source obtains from the ambient
polynomial-ring collaborators) is implemented executably on coefficient lists.
Linear-algebra collaborators that the source consumes as black boxes
(vector-space spans, ranks, kernels, matrix inversion, residue fields) are
modelled as explicit function parameters, exactly at the interface the source
calls them.
-/

set_option maxRecDepth 4000

section PolyArith

variable {F : Type} [Field F] [DecidableEq F]

/-- Coefficient list of a univariate polynomial with trailing zeros removed:
the canonical representation used throughout. Index i holds the coefficient
of x^i. -/
def trimPoly (l : List F) : List F :=
  (l.reverse.dropWhile (fun c => c == 0)).reverse

/-- Pointwise sum of coefficient lists (no trimming). -/
def paddAux : List F → List F → List F
  | [], q => q
  | p, [] => p
  | a :: p, b :: q => (a + b) :: paddAux p q

/-- Scale a coefficient list by a constant (no trimming). -/
def pscaleAux (c : F) (p : List F) : List F :=
  p.map (fun a => c * a)

/-- Polynomial addition. -/
def padd (p q : List F) : List F := trimPoly (paddAux p q)

/-- Polynomial subtraction. -/
def psub (p q : List F) : List F := trimPoly (paddAux p (pscaleAux (-1) q))

/-- Convolution product of coefficient lists (no trimming). -/
def pmulAux : List F → List F → List F
  | [], _ => []
  | a :: p, q => paddAux (pscaleAux a q) ((0 : F) :: pmulAux p q)

/-- Polynomial multiplication. -/
def pmul (p q : List F) : List F := trimPoly (pmulAux p q)

/-- Leading coefficient (0 for the zero polynomial). -/
def plead (p : List F) : F := ((trimPoly p).getLast?).getD 0

/-- The monic associate, as produced by Sage's `.monic()`. -/
def pmonic (p : List F) : List F := trimPoly (pscaleAux (plead p)⁻¹ p)

/-- Test for the zero polynomial. -/
def pIsZero (p : List F) : Bool := trimPoly p == ([] : List F)

/-- The constant polynomial 1. -/
def pOne : List F := [(1 : F)]

/-- The polynomial x. -/
def pX : List F := [(0 : F), 1]

/-- The monomial x^k. -/
def pXPow (k : Nat) : List F := List.replicate k (0 : F) ++ [(1 : F)]

/-- Sage's `.degree()` of a polynomial: an integer, -1 on the zero
polynomial. -/
def degreeInt (p : List F) : Int := ((trimPoly p).length : Int) - 1

/-- Euclidean division, driven by explicit fuel (one unit per eliminated
leading term); returns (quotient, remainder). -/
def pdivmodAux : Nat → List F → List F → (List F × List F)
  | 0, r, _ => ([], trimPoly r)
  | fuel + 1, r, b =>
    let r1 := trimPoly r
    let b1 := trimPoly b
    if b1.length = 0 ∨ r1.length < b1.length then ([], r1)
    else
      let k := r1.length - b1.length
      let c := plead r1 / plead b1
      let r2 := psub r1 (List.replicate k (0 : F) ++ pscaleAux c b1)
      let qr := pdivmodAux fuel r2 b
      (padd qr.1 (List.replicate k (0 : F) ++ [c]), qr.2)

/-- Euclidean division of p by b. -/
def pdivmod (p b : List F) : List F × List F := pdivmodAux (p.length + 1) p b

/-- Polynomial quotient. -/
def pdiv (p b : List F) : List F := (pdivmod p b).1

/-- Polynomial remainder. -/
def pmod (p b : List F) : List F := (pdivmod p b).2

/-- Euclid's algorithm with fuel. -/
def pgcdAux : Nat → List F → List F → List F
  | 0, a, _ => trimPoly a
  | fuel + 1, a, b =>
    if pIsZero b then trimPoly a
    else pgcdAux fuel b (pmod a b)

/-- Polynomial gcd (up to units; the source normalizes with `.monic()`). -/
def pgcd (a b : List F) : List F := pgcdAux (b.length + a.length + 1) a b

/-- gcd of a list of polynomials, folded from 0 as Sage's `gcd` does. -/
def pgcdList (l : List (List F)) : List F := l.foldl pgcd []

/-- Polynomial lcm (up to units). -/
def plcm (a b : List F) : List F := pdiv (pmul a b) (pgcd a b)

/-- lcm of a list of polynomials, folded from 1 as Sage's `lcm` does. -/
def plcmList (l : List (List F)) : List F := l.foldl plcm pOne

end PolyArith

section RationalFunctionField

variable {F : Type} [Field F] [DecidableEq F]

/-- An element of the rational function field F(x), kept - as Sage keeps
its elements - as a reduced fraction with monic denominator. -/
structure FFElem (F : Type) where
  num : List F
  den : List F
deriving DecidableEq

/-- Form the reduced fraction n/d with monic denominator, the normal form the
field arithmetic collaborator maintains. -/
def reduceFF (n d : List F) : FFElem F :=
  let g := pgcd n d
  let n1 := pdiv n g
  let d1 := pdiv d g
  let c := (plead d1)⁻¹
  ⟨trimPoly (pscaleAux c n1), trimPoly (pscaleAux c d1)⟩

/-- The zero field element. -/
def ffZero : FFElem F := ⟨[], pOne⟩

/-- The field element 1. -/
def ffOne : FFElem F := ⟨pOne, pOne⟩

/-- The field generator x. -/
def ffX : FFElem F := ⟨pX, pOne⟩

/-- The field element 1/x. -/
def ffInvX : FFElem F := ⟨pOne, pX⟩

/-- Zero test on field elements. -/
def ffIsZero (a : FFElem F) : Bool := pIsZero a.num

/-- Product of a polynomial with a field element, the `d*c` of the source. -/
def polyMulFF (d : List F) (c : FFElem F) : FFElem F := reduceFF (pmul d c.num) c.den

/-- The field element x^d for an integer d (the normal form that the field
power collaborator `K.gen() ** d` returns). -/
def ffIntPowX (d : Int) : FFElem F :=
  if 0 ≤ d then ⟨pXPow d.toNat, pOne⟩ else ⟨pOne, pXPow (-d).toNat⟩

end RationalFunctionField

section RationalMaximalOrder

variable {F : Type} [Field F] [DecidableEq F]

/-- An ideal of the maximal order of a rational function field: the class
FunctionFieldIdeal_rational stores the single generator. -/
structure FunctionFieldIdeal_rational (F : Type) where
  gen : FFElem F
deriving DecidableEq

/-- Shallow embedding of FunctionFieldMaximalOrder_rational.ideal: drop zero
generators; if none remain the zero ideal results, otherwise the principal
ideal generated by g/d with d the monic lcm of the denominators and g the
monic gcd of the numerators of d times each generator. -/
def FunctionFieldMaximalOrder_rational_ideal (gens0 : List (FFElem F)) :
    FunctionFieldIdeal_rational F :=
  let gens1 := gens0.filter (fun e => ! ffIsZero e)
  if gens1.length = 0 then ⟨ffZero⟩
  else
    let d := pmonic (plcmList (gens1.map (fun c => c.den)))
    let g := pmonic (pgcdList (gens1.map (fun c => (polyMulFF d c).num)))
    ⟨reduceFF g d⟩

/-- Shallow embedding of FunctionFieldMaximalOrder_rational: its basis
attribute is the one-element tuple (1,). -/
def FunctionFieldMaximalOrder_rational_basis : List (FFElem F) := [ffOne]

/-- Shallow embedding of FunctionFieldMaximalOrderInfinite_rational.basis:
the method returns the single field element 1/x (the value of
`1/self.function_field().gen()`), not a sequence. -/
def FunctionFieldMaximalOrderInfinite_rational_basis : FFElem F := ffInvX

/-- An ideal of the maximal infinite order of a rational function field,
storing the single generator. -/
structure FunctionFieldIdealInfinite_rational (F : Type) where
  gen : FFElem F
deriving DecidableEq

/-- Shallow embedding of FunctionFieldMaximalOrderInfinite_rational.ideal:
the generator is x^d for d the maximum of numerator degree minus denominator
degree over the nonzero generators, and 0 when every generator is zero (the
ValueError branch of the source's `max`). -/
def FunctionFieldMaximalOrderInfinite_rational_ideal (gens : List (FFElem F)) :
    FunctionFieldIdealInfinite_rational F :=
  match (gens.filter (fun g => ! ffIsZero g)).map
      (fun g => degreeInt g.num - degreeInt g.den) with
  | [] => ⟨ffZero⟩
  | d0 :: rest => ⟨ffIntPowX (rest.foldl max d0)⟩

end RationalMaximalOrder

section RationalOrderTheorems

variable {F : Type} [Field F] [DecidableEq F]

/-- A left fold of `max` over d0 :: rest yields an element of the list that
bounds the whole list from above. -/
theorem foldl_max_spec (d0 : Int) (rest : List Int) :
    (rest.foldl max d0 = d0 ∨ rest.foldl max d0 ∈ rest) ∧
    d0 ≤ rest.foldl max d0 ∧ ∀ y ∈ rest, y ≤ rest.foldl max d0 := by
  induction rest generalizing d0 with
  | nil => simp
  | cons a t ih =>
    have h := ih (max d0 a)
    simp only [List.foldl_cons]
    refine ⟨?_, ?_, ?_⟩
    · rcases h.1 with h1 | h1
      · rcases max_choice d0 a with hm | hm
        · exact Or.inl (by rw [h1, hm])
        · exact Or.inr (by rw [h1, hm]; exact List.mem_cons_self a t)
      · exact Or.inr (List.mem_cons_of_mem a h1)
    · exact le_trans (le_max_left d0 a) h.2.1
    · intro y hy
      rcases List.mem_cons.mp hy with hy | hy
      · subst hy
        exact le_trans (le_max_right d0 y) h.2.1
      · exact h.2.2 y hy

/-- C10: for the maximal infinite order of a rational function field,
ideal(*gens) returns the principal ideal generated by x^d, where d is the
maximum over the nonzero generators of numerator degree minus denominator
degree; when all generators are zero it returns the zero ideal. -/
theorem infinite_rational_ideal_spec (gens : List (FFElem F)) (ds : List Int) (d : Int)
    (hds : ds = (gens.filter (fun g => ! ffIsZero g)).map
      (fun g => degreeInt g.num - degreeInt g.den)) :
    (ds = [] → FunctionFieldMaximalOrderInfinite_rational_ideal gens = ⟨ffZero⟩) ∧
    (d ∈ ds → (∀ y ∈ ds, y ≤ d) →
      FunctionFieldMaximalOrderInfinite_rational_ideal gens = ⟨ffIntPowX d⟩) := by
  unfold FunctionFieldMaximalOrderInfinite_rational_ideal
  rw [← hds]
  constructor
  · intro h
    rw [h]
  · intro hmem hub
    cases ds with
    | nil => exact absurd hmem (List.not_mem_nil d)
    | cons d0 rest =>
      show FunctionFieldIdealInfinite_rational.mk (ffIntPowX (rest.foldl max d0)) =
        ⟨ffIntPowX d⟩
      have hf := foldl_max_spec d0 rest
      have hmem' : rest.foldl max d0 ∈ d0 :: rest := by
        rcases hf.1 with h1 | h1
        · rw [h1]; exact List.mem_cons_self d0 rest
        · exact List.mem_cons_of_mem d0 h1
      have h1 : rest.foldl max d0 ≤ d := hub _ hmem'
      have h2 : d ≤ rest.foldl max d0 := by
        rcases List.mem_cons.mp hmem with h | h
        · exact h ▸ hf.2.1
        · exact hf.2.2 d h
      rw [le_antisymm h1 h2]

end RationalOrderTheorems

section RationalOrderWitnesses

attribute [local semireducible] Rat.add Rat.mul Rat.sub Rat.inv

/-- C10 witness: for generators x and 1 over the rationals the degree
differences are [1, 0] with maximum 1, and the returned ideal is generated
by x^1. -/
theorem infinite_rational_ideal_spec_witness :
    ((1 : Int) ∈ [(1 : Int), 0] ∧ ∀ y ∈ [(1 : Int), 0], y ≤ 1) ∧
    FunctionFieldMaximalOrderInfinite_rational_ideal [ffX (F := ℚ), ffOne] =
      ⟨ffIntPowX 1⟩ :=
  ⟨⟨by decide, by decide⟩,
    (infinite_rational_ideal_spec [ffX (F := ℚ), ffOne] [1, 0] 1
      (by decide)).2 (by decide) (by decide)⟩

/-- C5: the basis machinery diverges on the maximal infinite order of a
rational function field.  FunctionFieldMaximalOrder_rational stores the basis
(1,) of length 1 = degree with entry the field element 1, as the claim
states, but FunctionFieldMaximalOrderInfinite_rational.basis evaluates to the
single field element 1/x - not a sequence, and not the element 1 - although
its own docstring announces the basis (1,). -/
theorem infinite_rational_basis_value :
    FunctionFieldMaximalOrder_rational_basis (F := ℚ) = [ffOne] ∧
    (FunctionFieldMaximalOrder_rational_basis (F := ℚ)).length = 1 ∧
    FunctionFieldMaximalOrderInfinite_rational_basis (F := ℚ) = ffInvX ∧
    FunctionFieldMaximalOrderInfinite_rational_basis (F := ℚ) ≠ ffOne := by
  refine ⟨rfl, rfl, rfl, ?_⟩
  decide

end RationalOrderWitnesses

section OrderBasisModel

variable {E M : Type}

/-- The collaborator interface consumed by FunctionFieldOrder_basis.__init__:
the ambient field's degree, identity and multiplication, and the span / rank /
membership operations of the free-module collaborator (`V.span`,
`module.rank`, `in module`), with the vector-space transform `to` folded into
the module operations. -/
structure OrderBasisCollab (E M : Type) where
  degree : Nat
  one : E
  mul : E → E → E
  span : List E → M
  rank : M → Nat
  mem : E → M → Bool

/-- The state FunctionFieldOrder_basis.__init__ establishes on success. -/
structure FunctionFieldOrder_basis (E M : Type) where
  basis : List E
  module : M

/-- Shallow embedding of FunctionFieldOrder_basis.__init__; each raise of the
source becomes an Except.error with the source's message. -/
def FunctionFieldOrder_basis_init (C : OrderBasisCollab E M) (basis : List E)
    (check : Bool) : Except String (FunctionFieldOrder_basis E M) :=
  if basis.length = 0 then Except.error "basis must have positive length"
  else if basis.length ≠ C.degree then
    Except.error "length of basis must equal degree of field"
  else
    let module := C.span basis
    if check then
      if C.rank module ≠ C.degree then
        Except.error "basis is not linearly independent"
      else if C.mem C.one module = false then
        Except.error "the identity element must be in the module spanned by basis"
      else if (basis.all (fun a => basis.all (fun b => C.mem (C.mul a b) module))) = false then
        Except.error "the module generated by basis must be closed under multiplication"
      else Except.ok ⟨basis, module⟩
    else Except.ok ⟨basis, module⟩

/-- The disjunction of failure conditions named by claim C2. -/
def orderBasisBad (C : OrderBasisCollab E M) (basis : List E) : Prop :=
  basis = [] ∨ basis.length ≠ C.degree ∨ C.rank (C.span basis) ≠ C.degree ∨
    C.mem C.one (C.span basis) = false ∨
    ∃ a ∈ basis, ∃ b ∈ basis, C.mem (C.mul a b) (C.span basis) = false

/-- Assembling the two iffs of claim C2 from which branch the computation
took. -/
theorem except_ok_error_assemble {α : Type} (x : Except String α) (v : α) (Bad : Prop)
    (h : (x = Except.ok v ∧ ¬ Bad) ∨ ((∃ msg, x = Except.error msg) ∧ Bad)) :
    (x = Except.ok v ↔ ¬ Bad) ∧ ((∃ msg, x = Except.error msg) ↔ Bad) := by
  rcases h with ⟨hok, hnb⟩ | ⟨⟨msg, herr⟩, hb⟩
  · refine ⟨⟨fun _ => hnb, fun _ => hok⟩, ?_, fun hbb => absurd hbb hnb⟩
    rintro ⟨m, hm⟩
    rw [hok] at hm
    exact absurd hm (by simp)
  · refine ⟨⟨?_, fun hnb => absurd hb hnb⟩, fun _ => hb, fun _ => ⟨msg, herr⟩⟩
    intro hok
    rw [herr] at hok
    exact absurd hok (by simp)

/-- C2: constructing a basis-given order with check=True fails with an error
exactly when the basis is empty, its length differs from the field degree,
the spanned module has rank different from the degree, 1 is not in the
module, or some product of two basis elements falls outside the module; when
none of these hold it succeeds and the stored basis is the given basis. -/
theorem order_basis_init_check (C : OrderBasisCollab E M) (basis : List E) :
    (FunctionFieldOrder_basis_init C basis true = Except.ok ⟨basis, C.span basis⟩ ↔
      ¬ orderBasisBad C basis) ∧
    ((∃ msg, FunctionFieldOrder_basis_init C basis true = Except.error msg) ↔
      orderBasisBad C basis) := by
  apply except_ok_error_assemble
  by_cases h1 : basis.length = 0
  · refine Or.inr ⟨⟨"basis must have positive length", ?_⟩,
      Or.inl (List.length_eq_zero.mp h1)⟩
    simp only [FunctionFieldOrder_basis_init, if_pos h1]
  · have c1 : (basis.length = 0) = False := eq_false h1
    by_cases h2 : basis.length = C.degree
    · have c2 : (basis.length ≠ C.degree) = False := eq_false (not_not_intro h2)
      by_cases h3 : C.rank (C.span basis) = C.degree
      · have c3 : (C.rank (C.span basis) ≠ C.degree) = False := eq_false (not_not_intro h3)
        by_cases h4 : C.mem C.one (C.span basis) = true
        · have c4 : (C.mem C.one (C.span basis) = false) = False := by simp [h4]
          by_cases h5 :
            (basis.all (fun a => basis.all (fun b => C.mem (C.mul a b) (C.span basis)))) = true
          · have c5 : ((basis.all
                (fun a => basis.all (fun b => C.mem (C.mul a b) (C.span basis)))) = false)
                = False := by simp [h5]
            refine Or.inl ⟨?_, ?_⟩
            · simp [FunctionFieldOrder_basis_init, c1, c2, c3, c4, c5]
            · intro hbad
              rcases hbad with h | h | h | h | h
              · exact h1 (by simp [h])
              · exact h h2
              · exact h h3
              · rw [h4] at h
                exact Bool.noConfusion h
              · rcases h with ⟨a, ha, b, hbm, hf⟩
                have hab := List.all_eq_true.mp h5 a ha
                have habb := List.all_eq_true.mp hab b hbm
                rw [habb] at hf
                exact Bool.noConfusion hf
          · have h5' : (basis.all
                (fun a => basis.all (fun b => C.mem (C.mul a b) (C.span basis)))) = false :=
              Bool.eq_false_iff.mpr h5
            refine Or.inr ⟨⟨"the module generated by basis must be closed under multiplication", ?_⟩, ?_⟩
            · simp [FunctionFieldOrder_basis_init, c1, c2, c3, c4, h5']
            · rcases List.all_eq_false.mp h5' with ⟨a, ha, hrest⟩
              rcases List.all_eq_false.mp (Bool.eq_false_iff.mpr hrest) with ⟨b, hbm, hf⟩
              exact Or.inr (Or.inr (Or.inr (Or.inr
                ⟨a, ha, b, hbm, Bool.eq_false_iff.mpr hf⟩)))
        · have h4' : C.mem C.one (C.span basis) = false := Bool.eq_false_iff.mpr h4
          refine Or.inr ⟨⟨"the identity element must be in the module spanned by basis", ?_⟩,
            Or.inr (Or.inr (Or.inr (Or.inl h4')))⟩
          simp [FunctionFieldOrder_basis_init, c1, c2, c3, h4']
      · refine Or.inr ⟨⟨"basis is not linearly independent", ?_⟩,
          Or.inr (Or.inr (Or.inl h3))⟩
        simp [FunctionFieldOrder_basis_init, c1, c2, h3]
    · refine Or.inr ⟨⟨"length of basis must equal degree of field", ?_⟩,
        Or.inr (Or.inl h2)⟩
      simp [FunctionFieldOrder_basis_init, c1, h2]

end OrderBasisModel

section CodifferentModel

variable {E B Mat Ideal : Type}

/-- The data consumed by the different/codifferent computation of a global
maximal order: the basis, field multiplication, the trace collaborator, the
matrix collaborators (constructor, inverse, columns), the in-source ideal
builder _ideal_from_vectors, and the fractional-ideal inversion collaborator
from ideal.py. -/
structure MaximalOrderTraceData (E B Mat Ideal : Type) where
  basis : List E
  mul : E → E → E
  trace : E → B
  matrixOfRows : List (List B) → Mat
  inverse : Mat → Mat
  columns : Mat → List (List B)
  ideal_from_vectors : List (List B) → Ideal
  ideal_inverse : Ideal → Ideal

/-- Shallow embedding of _codifferent_matrix: the matrix of traces of
products of basis elements, built row by row. -/
def codifferent_matrix (D : MaximalOrderTraceData E B Mat Ideal) : Mat :=
  D.matrixOfRows (D.basis.map (fun u => D.basis.map (fun v => D.trace (D.mul u v))))

/-- Shallow embedding of codifferent(): the ideal spanned by the columns of
the inverse of the trace matrix. -/
def codifferent (D : MaximalOrderTraceData E B Mat Ideal) : Ideal :=
  D.ideal_from_vectors (D.columns (D.inverse (codifferent_matrix D)))

/-- Shallow embedding of different(): the inverse of the codifferent as a
fractional ideal. -/
def different (D : MaximalOrderTraceData E B Mat Ideal) : Ideal :=
  D.ideal_inverse (codifferent D)

/-- A list map written through positional indexing. -/
theorem map_eq_range_map {α β : Type} [Inhabited α] (f : α → β) (l : List α) :
    l.map f = (List.range l.length).map (fun i => f (l.getD i default)) := by
  apply List.ext_getElem
  · simp
  · intro i h1 h2
    have hi : i < l.length := by simpa using h1
    simp [List.getD_eq_getElem?_getD, List.getElem?_eq_getElem hi]

/-- C3: for a global maximal order, the codifferent ideal is the ideal built
from the columns of the inverse of the n-by-n trace matrix T with
T[i][j] = trace(basis[i]*basis[j]), and different() is the inverse of
codifferent() as a fractional ideal. -/
theorem codifferent_different_spec [Inhabited E] (D : MaximalOrderTraceData E B Mat Ideal) :
    codifferent D = D.ideal_from_vectors (D.columns (D.inverse (D.matrixOfRows
      ((List.range D.basis.length).map (fun i => (List.range D.basis.length).map (fun j =>
        D.trace (D.mul (D.basis.getD i default) (D.basis.getD j default)))))))) ∧
    different D = D.ideal_inverse (codifferent D) := by
  constructor
  · have key : D.basis.map (fun u => D.basis.map (fun v => D.trace (D.mul u v))) =
        (List.range D.basis.length).map (fun i => (List.range D.basis.length).map (fun j =>
          D.trace (D.mul (D.basis.getD i default) (D.basis.getD j default)))) := by
      rw [map_eq_range_map (fun u => D.basis.map (fun v => D.trace (D.mul u v))) D.basis]
      apply List.map_congr_left
      intro i _
      exact map_eq_range_map (fun v => D.trace (D.mul (D.basis.getD i default) v)) D.basis
    unfold codifferent codifferent_matrix
    rw [key]
  · rfl

end CodifferentModel

section MulTableModel

variable {E V : Type}

/-- The data from which FunctionFieldMaximalOrder_global.__init__ builds its
multiplication table: the basis, the (commutative) field multiplication, and
the _coordinate_vector transform. -/
structure GlobalOrderMulData (E V : Type) where
  basis : List E
  mul : E → E → E
  coordinate_vector : E → V
  mul_comm : ∀ a b : E, mul a b = mul b a

/-- Shallow embedding of the mtable construction loop of
FunctionFieldMaximalOrder_global.__init__: the full n-by-n table of
coordinate vectors of products of basis elements. -/
def mtable (D : GlobalOrderMulData E V) : List (List V) :=
  D.basis.map (fun bi => D.basis.map (fun bj => D.coordinate_vector (D.mul bi bj)))

/-- C6: the multiplication table is an n-by-n table (both index orders are
valid lookups) and is symmetric in content: mtable[i][j] = mtable[j][i]. -/
theorem mtable_symmetric [Inhabited V] (D : GlobalOrderMulData E V) (i j : Nat)
    (hi : i < D.basis.length) (hj : j < D.basis.length) :
    (mtable D).length = D.basis.length ∧
    ((mtable D).getD i []).length = D.basis.length ∧
    ((mtable D).getD j []).length = D.basis.length ∧
    ((mtable D).getD i []).getD j default = ((mtable D).getD j []).getD i default := by
  have hrow : ∀ k (hk : k < D.basis.length),
      (mtable D).getD k [] = D.basis.map
        (fun bj => D.coordinate_vector (D.mul (D.basis.get ⟨k, hk⟩) bj)) := by
    intro k hk
    simp [mtable, List.getD_eq_getElem?_getD, List.getElem?_map,
      List.getElem?_eq_getElem hk, List.get_eq_getElem]
  have hcell : ∀ k l (hk : k < D.basis.length) (hl : l < D.basis.length),
      ((mtable D).getD k []).getD l default =
        D.coordinate_vector (D.mul (D.basis.get ⟨k, hk⟩) (D.basis.get ⟨l, hl⟩)) := by
    intro k l hk hl
    rw [hrow k hk]
    simp [List.getD_eq_getElem?_getD, List.getElem?_map, List.getElem?_eq_getElem hl,
      List.get_eq_getElem]
  refine ⟨by simp [mtable], by rw [hrow i hi]; simp, by rw [hrow j hj]; simp, ?_⟩
  rw [hcell i j hi hj, hcell j i hj hi, D.mul_comm]

/-- A concrete instantiation used to witness the multiplication-table
symmetry theorem. -/
def mtableExampleData : GlobalOrderMulData Nat Nat :=
  ⟨[1, 2], fun a b => a * b, fun a => a, fun a b => Nat.mul_comm a b⟩

/-- C6 witness: in a concrete two-element table both lookups are valid and the
off-diagonal entries agree. -/
theorem mtable_symmetric_witness :
    ((0 : Nat) < 2 ∧ (1 : Nat) < 2) ∧
    ((mtable mtableExampleData).getD 0 []).getD 1 default =
      ((mtable mtableExampleData).getD 1 []).getD 0 default :=
  ⟨⟨by decide, by decide⟩,
    (mtable_symmetric mtableExampleData 0 1 (by decide) (by decide)).2.2.2⟩

end MulTableModel

section DifferentialModel

variable {E : Type}

/-- The collaborator data of the differential module: the field's derivation
with respect to the base generator, field multiplication, and the decidable
equality of field elements used by _richcmp_. -/
structure DifferentialFieldData (E : Type) where
  derivation : E → E
  mul : E → E → E
  beq : E → E → Bool
  beq_iff : ∀ a b : E, beq a b = true ↔ a = b

/-- A differential f dx, storing only the normalized coefficient as
FunctionFieldDifferential_global does. -/
structure FunctionFieldDifferential_global (E : Type) where
  f : E

/-- Shallow embedding of FunctionFieldDifferential_global.__init__: when t is
given, the stored coefficient is f * derivation(t); otherwise it is f. -/
def differential_mk (D : DifferentialFieldData E) (f : E) (t : Option E) :
    FunctionFieldDifferential_global E :=
  match t with
  | some t => ⟨D.mul f (D.derivation t)⟩
  | none => ⟨f⟩

/-- Shallow embedding of the equality case of
FunctionFieldDifferential_global._richcmp_: comparison of the stored
coefficients. -/
def differential_richcmp_eq (D : DifferentialFieldData E)
    (w1 w2 : FunctionFieldDifferential_global E) : Bool :=
  D.beq w1.f w2.f

/-- C7: differential(field, f, t) has normalized coefficient f * der(t), it
equals the differential with coefficient f * der(t) and no t argument, and
two differentials compare equal exactly when their normalized coefficients
are equal. -/
theorem differential_normalized (D : DifferentialFieldData E) (f t : E)
    (w1 w2 : FunctionFieldDifferential_global E) :
    (differential_mk D f (some t)).f = D.mul f (D.derivation t) ∧
    differential_mk D f (some t) = differential_mk D (D.mul f (D.derivation t)) none ∧
    (differential_richcmp_eq D w1 w2 = true ↔ w1.f = w2.f) :=
  ⟨rfl, rfl, D.beq_iff w1.f w2.f⟩

end DifferentialModel

section PRadicalModel

/-- The collaborator interface of FunctionFieldMaximalOrder_global.p_radical:
the field degree, the order of the constant base field, the order basis, the
irreducibility test of the polynomial-ring collaborator, the residue-field
maps to_Fp / fr_Fp, field exponentiation, the coordinate transform, the
kernel collaborator of matrices over the residue field, and the in-source
ideal builder _ideal_from_vectors. -/
structure PRadicalCollab (F R E I : Type) where
  degree : Nat
  const_field_order : Nat
  basis : List E
  is_irreducible : List F → Bool
  to_Fp : List F → R
  fr_Fp : R → List F
  power : E → Nat → E
  coordinate_vector : E → List (List F)
  kernel_basis : List (List R) → List (List R)
  ideal_from_vectors : List (List (List F)) → I

/-- The source's loop `exp = q; while exp <= n: exp = exp**q`, with fuel; the
fuel n+1 always suffices because exp at least doubles each iteration. -/
def exp_loop (q n : Nat) : Nat → Nat → Nat
  | 0, exp => exp
  | fuel + 1, exp => if exp ≤ n then exp_loop q n fuel (exp ^ q) else exp

/-- Shallow embedding of FunctionFieldMaximalOrder_global.p_radical: the
guard raises unless the generator of the given ideal is a denominator-free
polynomial with irreducible numerator; past the guard, the radical ideal is
assembled from the kernel of the Frobenius-iterate matrix together with p
times the basis vectors. -/
def p_radical {F R E I : Type} [Field F] [DecidableEq F] (C : PRadicalCollab F R E I)
    (prime : FunctionFieldIdeal_rational F) : Except String I :=
  if ¬ (prime.gen.den = pOne ∧ C.is_irreducible prime.gen.num = true) then
    Except.error "not a prime ideal"
  else
    let p := prime.gen.num
    let q := C.const_field_order ^ ((trimPoly p).length - 1)
    let exp := exp_loop q C.degree (C.degree + 1) q
    let n := C.degree
    let mat := C.basis.map (fun g => (C.coordinate_vector (C.power g exp)).map C.to_Fp)
    let ker := C.kernel_basis mat
    let pvecs := (List.range n).map (fun i => (List.range n).map
      (fun j => if j = i then p else []))
    let kvecs := ker.map (fun b => b.map C.fr_Fp)
    Except.ok (C.ideal_from_vectors (pvecs ++ kvecs))

/-- C4: p_radical(prime) fails with an error exactly when the single
generator of prime is not a denominator-free polynomial with irreducible
numerator; when the generator is such a polynomial it returns an ideal
without raising. -/
theorem p_radical_ok_iff {F R E I : Type} [Field F] [DecidableEq F]
    (C : PRadicalCollab F R E I) (prime : FunctionFieldIdeal_rational F) :
    ((∃ J, p_radical C prime = Except.ok J) ↔
      (prime.gen.den = pOne ∧ C.is_irreducible prime.gen.num = true)) ∧
    ((∃ msg, p_radical C prime = Except.error msg) ↔
      ¬ (prime.gen.den = pOne ∧ C.is_irreducible prime.gen.num = true)) := by
  by_cases h : prime.gen.den = pOne ∧ C.is_irreducible prime.gen.num = true
  · constructor
    · simp only [p_radical, if_neg (not_not_intro h)]
      exact ⟨fun _ => h, fun _ => ⟨_, rfl⟩⟩
    · simp only [p_radical, if_neg (not_not_intro h)]
      constructor
      · rintro ⟨msg, hmsg⟩
        exact absurd hmsg (by simp)
      · intro hn
        exact absurd h hn
  · constructor
    · simp only [p_radical, if_pos h]
      constructor
      · rintro ⟨J, hJ⟩
        exact absurd hJ (by simp)
      · intro hh
        exact absurd hh h
    · simp only [p_radical, if_pos h]
      exact ⟨fun _ => h, fun _ => ⟨_, rfl⟩⟩

end PRadicalModel

section SplitAssertModel

open Polynomial

/-- Contract of the minimal-polynomial computation loop inside split (the
solve_left iteration of the source): the produced polynomial is monic,
annihilates the chosen element of the quotient algebra O/H, and has minimal
degree among monic annihilators - exactly what the loop guarantees, since it
stops at the first linear dependence among the powers of the element. -/
def is_minimal_annihilator {Fq A : Type} [Field Fq] [CommRing A] [Algebra Fq A]
    (a : A) (P : Polynomial Fq) : Prop :=
  P.Monic ∧ aeval a P = 0 ∧
    ∀ Q : Polynomial Fq, Q.Monic → aeval a Q = 0 → P.degree ≤ Q.degree

/-- C8: in the idempotent-splitting step of the Buchmann-Lenstra branch, the
chosen element a comes from the kernel of x -> x^q - x, so a^q = a where q is
the residue-field order (a power of the characteristic p); whenever the
computed minimal polynomial P of a is factored with f an irreducible factor
and g the product of the remaining factors, f and g generate the unit ideal
(the Bezout gcd is 1), so the assertion guarding the Bezout identity never
fails on any reachable input. -/
theorem split_bezout_assert {Fq A : Type} [Field Fq] [CommRing A] [Algebra Fq A]
    (p q : ℕ) [CharP Fq p] (_hq : 1 < q) (hpq : p ∣ q)
    (a : A) (ha : a ^ q = a) (P f g : Polynomial Fq)
    (hP : is_minimal_annihilator a P) (hf : Irreducible f) (hfg : f * g = P) :
    IsCoprime f g := by
  obtain ⟨hPm, hPa, hPmin⟩ := hP
  have hXq : aeval a ((X : Polynomial Fq) ^ q - X) = 0 := by
    simp [ha]
  have hPdvd : P ∣ ((X : Polynomial Fq) ^ q - X) := by
    rw [← Polynomial.modByMonic_eq_zero_iff_dvd hPm]
    by_contra hR0
    set R := ((X : Polynomial Fq) ^ q - X) %ₘ P with hRdef
    have haR : aeval a R = 0 := by
      rw [hRdef, Polynomial.modByMonic_eq_sub_mul_div _ hPm]
      simp [hXq, hPa]
    have hRlt : R.degree < P.degree := Polynomial.degree_modByMonic_lt _ hPm
    have hmono : (R * Polynomial.C R.leadingCoeff⁻¹).Monic :=
      Polynomial.monic_mul_leadingCoeff_inv hR0
    have haR2 : aeval a (R * Polynomial.C R.leadingCoeff⁻¹) = 0 := by
      rw [map_mul, haR, zero_mul]
    have hdegR2 : (R * Polynomial.C R.leadingCoeff⁻¹).degree = R.degree :=
      Polynomial.degree_mul_leadingCoeff_inv R hR0
    have hle := hPmin _ hmono haR2
    rw [hdegR2] at hle
    exact absurd hle (not_le.mpr hRlt)
  have hsep : ((X : Polynomial Fq) ^ q - X).Separable := galois_poly_separable p q hpq
  have hsq : Squarefree ((X : Polynomial Fq) ^ q - X) := hsep.squarefree
  have hPsq : Squarefree P := Squarefree.squarefree_of_dvd hPdvd hsq
  have hfg2 : ¬ f ∣ g := by
    rintro ⟨c, rfl⟩
    have hff : f * f ∣ P := ⟨c, by rw [← hfg]; ring⟩
    exact hf.not_unit (hPsq f hff)
  exact hf.coprime_iff_not_dvd.mpr hfg2

/-- The polynomial X + 1 over GF(2) is the minimal monic annihilator of the
algebra element 1. -/
theorem minimal_annihilator_X_add_one :
    is_minimal_annihilator (1 : ZMod 2) ((X : Polynomial (ZMod 2)) + 1) := by
  refine ⟨?_, ?_, ?_⟩
  · simpa using Polynomial.monic_X_add_C (1 : ZMod 2)
  · simp only [map_add, Polynomial.aeval_X, Polynomial.aeval_one]
    decide
  · intro Q hQm hQa
    have hdeg : ((X : Polynomial (ZMod 2)) + 1).degree = 1 := by
      simpa using Polynomial.degree_X_add_C (1 : ZMod 2)
    rw [hdeg]
    by_contra hlt
    push_neg at hlt
    have hle : Q.degree ≤ 0 := Nat.WithBot.lt_one_iff_le_zero.mp hlt
    have hQ1 : Q = 1 := (hQm.degree_le_zero_iff_eq_one).mp hle
    rw [hQ1] at hQa
    simp at hQa

/-- X + 1 is irreducible over GF(2). -/
theorem irreducible_X_add_one_gf2 : Irreducible ((X : Polynomial (ZMod 2)) + 1) := by
  have h : ((X : Polynomial (ZMod 2)) - C 1) = X + 1 := by
    have hn : (-1 : ZMod 2) = 1 := by decide
    rw [sub_eq_add_neg, ← Polynomial.C_neg, hn, Polynomial.C_1]
  exact h ▸ Polynomial.irreducible_X_sub_C (1 : ZMod 2)

/-- C8 witness: over GF(2) with q = 2, the element 1 satisfies 1^2 = 1, its
minimal polynomial X + 1 factors with first irreducible factor X + 1 and
remaining product 1, and the two are coprime as the assertion demands. -/
theorem split_bezout_assert_witness :
    (1 < 2 ∧ (2 : ℕ) ∣ 2 ∧ (1 : ZMod 2) ^ 2 = 1 ∧
      is_minimal_annihilator (1 : ZMod 2) ((X : Polynomial (ZMod 2)) + 1) ∧
      Irreducible ((X : Polynomial (ZMod 2)) + 1) ∧
      ((X : Polynomial (ZMod 2)) + 1) * 1 = (X : Polynomial (ZMod 2)) + 1) ∧
    IsCoprime ((X : Polynomial (ZMod 2)) + 1) (1 : Polynomial (ZMod 2)) :=
  ⟨⟨by decide, dvd_refl 2, one_pow 2, minimal_annihilator_X_add_one,
      irreducible_X_add_one_gf2, mul_one _⟩,
    split_bezout_assert 2 2 (by decide) (dvd_refl 2) (1 : ZMod 2) (one_pow 2)
      ((X : Polynomial (ZMod 2)) + 1) ((X : Polynomial (ZMod 2)) + 1) 1
      minimal_annihilator_X_add_one irreducible_X_add_one_gf2 (mul_one _)⟩

end SplitAssertModel

section KummerBranchSupport

open Polynomial

/-- Support for C1, Kummer branch: the product of the prime powers returned
by the factorization collaborator is nonzero and its degree is the weighted
sum of factor degrees. -/
theorem kummer_prod_natDegree {Fq : Type} [Field Fq]
    (facs : List (Polynomial Fq × ℕ)) (hnz : ∀ qe ∈ facs, qe.1 ≠ 0) :
    (facs.map (fun qe => qe.1 ^ qe.2)).prod ≠ 0 ∧
      Polynomial.natDegree ((facs.map (fun qe => qe.1 ^ qe.2)).prod) =
        (facs.map (fun qe => qe.2 * Polynomial.natDegree qe.1)).sum := by
  induction facs with
  | nil => simp
  | cons qe t ih =>
    have hq : qe.1 ≠ 0 := hnz qe (List.mem_cons_self qe t)
    have ht := ih (fun x hx => hnz x (List.mem_cons_of_mem qe hx))
    have hqp : qe.1 ^ qe.2 ≠ 0 := pow_ne_zero _ hq
    refine ⟨by simpa using mul_ne_zero hqp ht.1, ?_⟩
    simp only [List.map_cons, List.prod_cons, List.sum_cons]
    rw [Polynomial.natDegree_mul hqp ht.1, ht.2,
      Polynomial.natDegree_pow' (pow_ne_zero _ (Polynomial.leadingCoeff_ne_zero.mpr hq))]

/-- Support for C1, Kummer branch: the Kummer branch of decomposition emits
one triple (prime, deg q_i, e_i) per factor of the reduced minimal polynomial
fp; under the factorization collaborator's contract (the returned prime
powers multiply to fp and the factors are nonzero), the weighted sum of
ramification indices times relative degrees equals the degree n of fp.  The
Buchmann-Lenstra branch is not covered by this lemma. -/
theorem kummer_branch_degree_sum {Fq : Type} [Field Fq]
    (facs : List (Polynomial Fq × ℕ)) (fp : Polynomial Fq) (n : ℕ)
    (hprod : (facs.map (fun qe => qe.1 ^ qe.2)).prod = fp)
    (hnz : ∀ qe ∈ facs, qe.1 ≠ 0)
    (hdeg : fp.natDegree = n) :
    (facs.map (fun qe => qe.2 * Polynomial.natDegree qe.1)).sum = n := by
  have h := (kummer_prod_natDegree facs hnz).2
  rw [hprod, hdeg] at h
  exact h.symm

end KummerBranchSupport

section DoctestValidation

attribute [local semireducible] Rat.add Rat.mul Rat.sub Rat.inv

/-- Doctest of FunctionFieldMaximalOrder_rational.ideal reproduced in the
model: O.ideal(x^3+1, x^3+6) is the unit ideal over QQ. -/
theorem rational_ideal_doctest_unit :
    FunctionFieldMaximalOrder_rational_ideal
      [(⟨[1, 0, 0, 1], [1]⟩ : FFElem ℚ), ⟨[6, 0, 0, 1], [1]⟩] = ⟨ffOne⟩ := by
  decide

/-- Doctest of FunctionFieldMaximalOrder_rational.ideal reproduced in the
model: O.ideal((x^2+1)*(x^3+1), (x^3+6)*(x^2+1)) is generated by x^2+1. -/
theorem rational_ideal_doctest_gcd :
    FunctionFieldMaximalOrder_rational_ideal
      [(⟨[1, 0, 1, 1, 0, 1], [1]⟩ : FFElem ℚ), ⟨[6, 0, 6, 1, 0, 1], [1]⟩] =
      ⟨⟨[1, 0, 1], [1]⟩⟩ := by
  decide

/-- Doctest of FunctionFieldMaximalOrderInfinite_rational.ideal reproduced in
the model: Oinf.ideal(x^3+1, x^3+6) is generated by x^3. -/
theorem infinite_ideal_doctest_cube :
    FunctionFieldMaximalOrderInfinite_rational_ideal
      [(⟨[1, 0, 0, 1], [1]⟩ : FFElem ℚ), ⟨[6, 0, 0, 1], [1]⟩] =
      ⟨⟨[0, 0, 0, 1], [1]⟩⟩ := by
  decide

/-- Doctest of FunctionFieldMaximalOrderInfinite_rational.ideal reproduced in
the model: Oinf.ideal((x^2+1)*(x^3+1), (x^3+6)*(x^2+1)) is generated by
x^5. -/
theorem infinite_ideal_doctest_fifth :
    FunctionFieldMaximalOrderInfinite_rational_ideal
      [(⟨[1, 0, 1, 1, 0, 1], [1]⟩ : FFElem ℚ), ⟨[6, 0, 6, 1, 0, 1], [1]⟩] =
      ⟨⟨[0, 0, 0, 0, 0, 1], [1]⟩⟩ := by
  decide

/-- Doctest of prime_ideal of the maximal infinite order reproduced in the
model: the ideal of 1/t is generated by 1/t. -/
theorem infinite_ideal_doctest_prime :
    FunctionFieldMaximalOrderInfinite_rational_ideal [ffInvX (F := ℚ)] =
      ⟨ffInvX⟩ := by
  decide

/-- The fraction reduction underlying the field-element normal form:
(x+1)/(2x+2) reduces to the constant 1/2. -/
theorem reduceFF_doctest :
    reduceFF ([1, 1] : List ℚ) [2, 2] = ⟨[(1 : ℚ)/2], [1]⟩ := by
  decide

end DoctestValidation

section PolySemantics

open Polynomial

variable {F : Type} [Field F] [DecidableEq F]

/-- Interpretation of a coefficient list as a polynomial (Horner form),
linking the executable arithmetic to the algebra it implements. -/
noncomputable def toPoly : List F → Polynomial F
  | [] => 0
  | a :: p => Polynomial.C a + Polynomial.X * toPoly p

theorem toPoly_nil : toPoly ([] : List F) = 0 := by
  rw [toPoly]

theorem toPoly_cons (a : F) (p : List F) :
    toPoly (a :: p) = Polynomial.C a + Polynomial.X * toPoly p := by
  rw [toPoly]

/-- The interpretation reads off coefficients positionally. -/
theorem toPoly_coeff (l : List F) (n : ℕ) : (toPoly l).coeff n = l.getD n 0 := by
  induction l generalizing n with
  | nil => simp [toPoly_nil]
  | cons a t ih =>
    cases n with
    | zero =>
      rw [toPoly_cons, mul_comm]
      simp [Polynomial.coeff_add, Polynomial.coeff_mul_X_zero]
    | succ n =>
      rw [toPoly_cons]
      simp [Polynomial.coeff_add, Polynomial.coeff_C, Polynomial.coeff_X_mul, ih]

theorem toPoly_append (l1 l2 : List F) :
    toPoly (l1 ++ l2) = toPoly l1 + Polynomial.X ^ l1.length * toPoly l2 := by
  induction l1 with
  | nil => simp [toPoly_nil]
  | cons a t ih =>
    simp only [List.cons_append, toPoly_cons, ih, List.length_cons]
    ring

/-- Removing a trailing coefficient: it survives exactly when nonzero. -/
theorem trim_concat (l : List F) (a : F) :
    trimPoly (l ++ [a]) = if a = 0 then trimPoly l else l ++ [a] := by
  unfold trimPoly
  rw [List.reverse_append]
  simp only [List.reverse_cons, List.reverse_nil, List.nil_append, List.singleton_append,
    List.dropWhile_cons]
  by_cases ha : a = 0
  · simp [ha]
  · simp [ha]

/-- Trimming does not change the interpreted polynomial. -/
theorem toPoly_trim (l : List F) : toPoly (trimPoly l) = toPoly l := by
  induction l using List.reverseRecOn with
  | nil => rfl
  | append_singleton l a ih =>
    rw [trim_concat]
    by_cases ha : a = 0
    · rw [if_pos ha, ih, ha, toPoly_append]
      simp [toPoly_cons, toPoly_nil]
    · rw [if_neg ha]

/-- The last element of a trimmed list is not zero. -/
theorem trim_getLast_ne_zero (l : List F) (c : F) (h : (trimPoly l).getLast? = some c) :
    c ≠ 0 := by
  unfold trimPoly at h
  rw [List.getLast?_reverse] at h
  have aux : ∀ (xs : List F) (c : F),
      (xs.dropWhile (fun x => x == 0)).head? = some c → c ≠ 0 := by
    intro xs
    induction xs with
    | nil => intro c hc; simp [List.dropWhile] at hc
    | cons a t ih =>
      intro c hc
      rw [List.dropWhile_cons] at hc
      by_cases ha : a = 0
      · rw [if_pos (by simp [ha])] at hc
        exact ih c hc
      · rw [if_neg (by simp [ha])] at hc
        simp only [List.head?_cons, Option.some.injEq] at hc
        rw [← hc]
        exact ha
  exact aux l.reverse c h

/-- A list whose last entry is nonzero is already trimmed. -/
theorem trim_eq_self (l : List F) (h : ∀ c, l.getLast? = some c → c ≠ 0) :
    trimPoly l = l := by
  induction l using List.reverseRecOn with
  | nil => rfl
  | append_singleton t a _ =>
    have ha : a ≠ 0 := h a (by simp)
    rw [trim_concat, if_neg ha]

/-- Trimming is idempotent. -/
theorem trim_idem (l : List F) : trimPoly (trimPoly l) = trimPoly l :=
  trim_eq_self _ (trim_getLast_ne_zero l)

/-- The interpretation vanishes exactly on lists that trim to nil. -/
theorem toPoly_eq_zero_iff (l : List F) : toPoly l = 0 ↔ trimPoly l = [] := by
  constructor
  · intro h
    by_contra hne
    obtain ⟨c, hc⟩ := Option.ne_none_iff_exists'.mp
      (mt List.getLast?_eq_none_iff.mp hne)
    have hc0 : c ≠ 0 := trim_getLast_ne_zero l c hc
    have hco : (toPoly (trimPoly l)).coeff ((trimPoly l).length - 1) = c := by
      rw [toPoly_coeff]
      rw [List.getLast?_eq_getElem?] at hc
      simp [hc]
    rw [toPoly_trim, h] at hco
    simp at hco
    exact hc0 hco.symm
  · intro h
    rw [← toPoly_trim, h, toPoly_nil]

theorem length_trim_le (l : List F) : (trimPoly l).length ≤ l.length := by
  unfold trimPoly
  simp only [List.length_reverse]
  exact le_trans (List.dropWhile_sublist _).length_le (by simp)

/-- Degree of the interpretation of a non-vanishing list. -/
theorem toPoly_natDegree (l : List F) (h : trimPoly l ≠ []) :
    (toPoly l).natDegree = (trimPoly l).length - 1 := by
  obtain ⟨c, hc⟩ := Option.ne_none_iff_exists'.mp (mt List.getLast?_eq_none_iff.mp h)
  have hc0 : c ≠ 0 := trim_getLast_ne_zero l c hc
  have hlen : 0 < (trimPoly l).length := List.length_pos.mpr h
  rw [← toPoly_trim]
  apply le_antisymm
  · rw [Polynomial.natDegree_le_iff_coeff_eq_zero]
    intro N hN
    rw [toPoly_coeff]
    have : (trimPoly l).length ≤ N := by omega
    simp [List.getElem?_eq_none this]
  · apply Polynomial.le_natDegree_of_ne_zero
    rw [toPoly_coeff]
    rw [List.getLast?_eq_getElem?] at hc
    simp [hc]
    exact hc0

/-- Leading coefficient of the interpretation is the stored leading
coefficient. -/
theorem toPoly_leadingCoeff (l : List F) (h : trimPoly l ≠ []) :
    (toPoly l).leadingCoeff = plead l := by
  obtain ⟨c, hc⟩ := Option.ne_none_iff_exists'.mp (mt List.getLast?_eq_none_iff.mp h)
  have h1 : (toPoly l).leadingCoeff = c := by
    rw [← Polynomial.coeff_natDegree, toPoly_natDegree l h, ← toPoly_trim, toPoly_coeff]
    rw [List.getLast?_eq_getElem?] at hc
    simp [hc]
  have h2 : plead l = c := by
    unfold plead
    rw [hc]
    rfl
  rw [h1, h2]

end PolySemantics

section PolySemanticsOps

open Polynomial

variable {F : Type} [Field F] [DecidableEq F]

theorem toPoly_paddAux (p q : List F) :
    toPoly (paddAux p q) = toPoly p + toPoly q := by
  induction p generalizing q with
  | nil => simp [paddAux, toPoly_nil]
  | cons a t ih =>
    cases q with
    | nil => simp [paddAux, toPoly_nil]
    | cons b u =>
      simp only [paddAux, toPoly_cons, ih, Polynomial.C_add]
      ring

theorem toPoly_pscaleAux (c : F) (p : List F) :
    toPoly (pscaleAux c p) = Polynomial.C c * toPoly p := by
  induction p with
  | nil => simp [pscaleAux, toPoly_nil]
  | cons a t ih =>
    simp only [pscaleAux, List.map_cons, toPoly_cons] at ih ⊢
    rw [ih, Polynomial.C_mul]
    ring

theorem toPoly_padd (p q : List F) : toPoly (padd p q) = toPoly p + toPoly q := by
  rw [padd, toPoly_trim, toPoly_paddAux]

theorem toPoly_psub (p q : List F) : toPoly (psub p q) = toPoly p - toPoly q := by
  rw [psub, toPoly_trim, toPoly_paddAux, toPoly_pscaleAux]
  have hC : Polynomial.C (-1 : F) = -1 := by
    rw [Polynomial.C_neg, Polynomial.C_1]
  rw [hC]
  ring

theorem toPoly_pmulAux (p q : List F) :
    toPoly (pmulAux p q) = toPoly p * toPoly q := by
  induction p with
  | nil => simp [pmulAux, toPoly_nil]
  | cons a t ih =>
    simp only [pmulAux, toPoly_paddAux, toPoly_pscaleAux, toPoly_cons, ih,
      Polynomial.C_0]
    ring

theorem toPoly_pmul (p q : List F) : toPoly (pmul p q) = toPoly p * toPoly q := by
  rw [pmul, toPoly_trim, toPoly_pmulAux]

theorem toPoly_shift (k : ℕ) (l : List F) :
    toPoly (List.replicate k (0 : F) ++ l) = Polynomial.X ^ k * toPoly l := by
  rw [toPoly_append]
  have hz : toPoly (List.replicate k (0 : F)) = 0 := by
    induction k with
    | zero => simp [toPoly_nil]
    | succ n ih => simp [List.replicate_succ, toPoly_cons, ih]
  simp [hz]

theorem plead_trim (l : List F) : plead (trimPoly l) = plead l := by
  unfold plead
  rw [trim_idem]

theorem plead_ne_zero (l : List F) (h : trimPoly l ≠ []) : plead l ≠ 0 := by
  obtain ⟨c, hc⟩ := Option.ne_none_iff_exists'.mp (mt List.getLast?_eq_none_iff.mp h)
  unfold plead
  simp only [hc, Option.getD_some]
  exact trim_getLast_ne_zero l c hc

end PolySemanticsOps

section PolyDivSpec

open Polynomial

variable {F : Type} [Field F] [DecidableEq F]

/-- The fuel-driven division is correct: with enough fuel, the quotient and
remainder satisfy the division identity and the remainder has degree below
the divisor's. -/
theorem pdivmodAux_spec (fuel : ℕ) :
    ∀ (r b : List F), trimPoly b ≠ [] → (trimPoly r).length ≤ fuel →
      toPoly (pdivmodAux fuel r b).1 * toPoly b + toPoly (pdivmodAux fuel r b).2 =
        toPoly r ∧
      (trimPoly (pdivmodAux fuel r b).2).length < (trimPoly b).length ∧
      trimPoly (pdivmodAux fuel r b).2 = (pdivmodAux fuel r b).2 := by
  induction fuel with
  | zero =>
    intro r b hb hr
    have hr0 : trimPoly r = [] := List.length_eq_zero.mp (Nat.le_zero.mp hr)
    simp only [pdivmodAux]
    refine ⟨?_, ?_, ?_⟩
    · rw [toPoly_nil, zero_mul, zero_add, toPoly_trim]
    · rw [hr0]
      simpa using List.length_pos.mpr hb
    · rw [hr0]
      rfl
  | succ fuel ih =>
    intro r b hb hr
    by_cases hcase : (trimPoly b).length = 0 ∨ (trimPoly r).length < (trimPoly b).length
    · have hred : pdivmodAux (fuel + 1) r b = ([], trimPoly r) := by
        simp only [pdivmodAux, if_pos hcase]
      rw [hred]
      rcases hcase with h0 | hlt
      · exact absurd (List.length_eq_zero.mp h0) hb
      · refine ⟨?_, ?_, trim_idem r⟩
        · rw [toPoly_nil, zero_mul, zero_add, toPoly_trim]
        · rw [trim_idem]
          exact hlt
    · have hb0 : (trimPoly b).length ≠ 0 := fun h => hcase (Or.inl h)
      have hge : (trimPoly b).length ≤ (trimPoly r).length :=
        not_lt.mp (fun h => hcase (Or.inr h))
      have hb1 : 1 ≤ (trimPoly b).length := Nat.one_le_iff_ne_zero.mpr hb0
      have hrne : trimPoly r ≠ [] := by
        intro h
        rw [h] at hge
        simp only [List.length_nil, Nat.le_zero] at hge
        exact hb0 hge
      -- names for the pieces of the elimination step
      have hPb0 : toPoly b ≠ 0 := fun h => hb ((toPoly_eq_zero_iff b).mp h)
      have hPr0 : toPoly r ≠ 0 := fun h => hrne ((toPoly_eq_zero_iff r).mp h)
      have hc0 : plead (trimPoly r) / plead (trimPoly b) ≠ 0 :=
        div_ne_zero (by rw [plead_trim]; exact plead_ne_zero r hrne)
          (by rw [plead_trim]; exact plead_ne_zero b hb)
      -- the subtracted polynomial: same degree, same leading coefficient
      have hsub : toPoly (psub (trimPoly r)
          (List.replicate ((trimPoly r).length - (trimPoly b).length) (0 : F) ++
            pscaleAux (plead (trimPoly r) / plead (trimPoly b)) (trimPoly b))) =
          toPoly r -
            Polynomial.C (plead (trimPoly r) / plead (trimPoly b)) *
              Polynomial.X ^ ((trimPoly r).length - (trimPoly b).length) * toPoly b := by
        rw [toPoly_psub, toPoly_shift, toPoly_pscaleAux, toPoly_trim, toPoly_trim]
        ring
      have hQ0 : Polynomial.C (plead (trimPoly r) / plead (trimPoly b)) *
          Polynomial.X ^ ((trimPoly r).length - (trimPoly b).length) * toPoly b ≠ 0 := by
        exact mul_ne_zero (mul_ne_zero (by simpa using hc0) (pow_ne_zero _ Polynomial.X_ne_zero)) hPb0
      have hndQ : (Polynomial.C (plead (trimPoly r) / plead (trimPoly b)) *
          Polynomial.X ^ ((trimPoly r).length - (trimPoly b).length) * toPoly b).natDegree =
          (trimPoly r).length - 1 := by
        rw [mul_assoc, Polynomial.natDegree_C_mul hc0, Polynomial.natDegree_mul
          (pow_ne_zero _ Polynomial.X_ne_zero) hPb0, Polynomial.natDegree_X_pow,
          toPoly_natDegree b hb]
        omega
      have hndr : (toPoly r).natDegree = (trimPoly r).length - 1 := toPoly_natDegree r hrne
      have hdeg : (toPoly r).degree =
          (Polynomial.C (plead (trimPoly r) / plead (trimPoly b)) *
            Polynomial.X ^ ((trimPoly r).length - (trimPoly b).length) * toPoly b).degree := by
        rw [Polynomial.degree_eq_natDegree hPr0, Polynomial.degree_eq_natDegree hQ0,
          hndQ, hndr]
      have hlc : (toPoly r).leadingCoeff =
          (Polynomial.C (plead (trimPoly r) / plead (trimPoly b)) *
            Polynomial.X ^ ((trimPoly r).length - (trimPoly b).length) * toPoly b).leadingCoeff := by
        rw [Polynomial.leadingCoeff_mul, Polynomial.leadingCoeff_mul,
          Polynomial.leadingCoeff_C, Polynomial.leadingCoeff_X_pow,
          toPoly_leadingCoeff r hrne, toPoly_leadingCoeff b hb, plead_trim, plead_trim,
          mul_one, div_mul_cancel₀ _ (plead_ne_zero b hb)]
      have hdlt := Polynomial.degree_sub_lt hdeg hPr0 hlc
      rw [← hsub] at hdlt
      -- transfer the semantic degree decrease to trimmed lengths
      have hlen2 : (trimPoly (psub (trimPoly r)
          (List.replicate ((trimPoly r).length - (trimPoly b).length) (0 : F) ++
            pscaleAux (plead (trimPoly r) / plead (trimPoly b)) (trimPoly b)))).length <
          (trimPoly r).length := by
        by_cases h2 : toPoly (psub (trimPoly r)
            (List.replicate ((trimPoly r).length - (trimPoly b).length) (0 : F) ++
              pscaleAux (plead (trimPoly r) / plead (trimPoly b)) (trimPoly b))) = 0
        · rw [(toPoly_eq_zero_iff _).mp h2]
          simpa using List.length_pos.mpr hrne
        · have hnd2 := Polynomial.natDegree_lt_natDegree h2 hdlt
          have hne2 : trimPoly (psub (trimPoly r)
              (List.replicate ((trimPoly r).length - (trimPoly b).length) (0 : F) ++
                pscaleAux (plead (trimPoly r) / plead (trimPoly b)) (trimPoly b))) ≠ [] :=
            fun h => h2 ((toPoly_eq_zero_iff _).mpr h)
          have := toPoly_natDegree _ hne2
          rw [this, hndr] at hnd2
          have hpos := List.length_pos.mpr hne2
          omega
      have hfuel2 : (trimPoly (psub (trimPoly r)
          (List.replicate ((trimPoly r).length - (trimPoly b).length) (0 : F) ++
            pscaleAux (plead (trimPoly r) / plead (trimPoly b)) (trimPoly b)))).length ≤ fuel := by
        omega
      have hih := ih (psub (trimPoly r)
        (List.replicate ((trimPoly r).length - (trimPoly b).length) (0 : F) ++
          pscaleAux (plead (trimPoly r) / plead (trimPoly b)) (trimPoly b))) b hb hfuel2
      have hred : pdivmodAux (fuel + 1) r b =
          (padd (pdivmodAux fuel (psub (trimPoly r)
              (List.replicate ((trimPoly r).length - (trimPoly b).length) (0 : F) ++
                pscaleAux (plead (trimPoly r) / plead (trimPoly b)) (trimPoly b))) b).1
            (List.replicate ((trimPoly r).length - (trimPoly b).length) (0 : F) ++
              [plead (trimPoly r) / plead (trimPoly b)]),
           (pdivmodAux fuel (psub (trimPoly r)
              (List.replicate ((trimPoly r).length - (trimPoly b).length) (0 : F) ++
                pscaleAux (plead (trimPoly r) / plead (trimPoly b)) (trimPoly b))) b).2) := by
        simp only [pdivmodAux, if_neg hcase]
      rw [hred]
      refine ⟨?_, hih.2.1, hih.2.2⟩
      rw [toPoly_padd, toPoly_shift, toPoly_cons, toPoly_nil, mul_zero, add_zero]
      have hexp : (toPoly (pdivmodAux fuel (psub (trimPoly r)
          (List.replicate ((trimPoly r).length - (trimPoly b).length) (0 : F) ++
            pscaleAux (plead (trimPoly r) / plead (trimPoly b)) (trimPoly b))) b).1 +
            Polynomial.X ^ ((trimPoly r).length - (trimPoly b).length) *
              Polynomial.C (plead (trimPoly r) / plead (trimPoly b))) * toPoly b +
          toPoly (pdivmodAux fuel (psub (trimPoly r)
            (List.replicate ((trimPoly r).length - (trimPoly b).length) (0 : F) ++
              pscaleAux (plead (trimPoly r) / plead (trimPoly b)) (trimPoly b))) b).2 =
          (toPoly (pdivmodAux fuel (psub (trimPoly r)
            (List.replicate ((trimPoly r).length - (trimPoly b).length) (0 : F) ++
              pscaleAux (plead (trimPoly r) / plead (trimPoly b)) (trimPoly b))) b).1 * toPoly b +
            toPoly (pdivmodAux fuel (psub (trimPoly r)
              (List.replicate ((trimPoly r).length - (trimPoly b).length) (0 : F) ++
                pscaleAux (plead (trimPoly r) / plead (trimPoly b)) (trimPoly b))) b).2) +
            Polynomial.C (plead (trimPoly r) / plead (trimPoly b)) *
              Polynomial.X ^ ((trimPoly r).length - (trimPoly b).length) * toPoly b := by
        ring
      rw [hexp, hih.1, hsub]
      ring

/-- Division identity for pdivmod: the packaged fuel always suffices. -/
theorem pdivmod_spec (p b : List F) (hb : trimPoly b ≠ []) :
    toPoly (pdiv p b) * toPoly b + toPoly (pmod p b) = toPoly p ∧
      (trimPoly (pmod p b)).length < (trimPoly b).length ∧
      trimPoly (pmod p b) = pmod p b := by
  have hfuel : (trimPoly p).length ≤ p.length + 1 :=
    le_trans (length_trim_le p) (Nat.le_succ _)
  exact pdivmodAux_spec (p.length + 1) p b hb hfuel

end PolyDivSpec

section PolyGcdSpec

open Polynomial

variable {F : Type} [Field F] [DecidableEq F]

/-- g is a greatest common divisor of a and b in the divisibility order. -/
def pIsGCD (a b g : Polynomial F) : Prop :=
  g ∣ a ∧ g ∣ b ∧ ∀ e : Polynomial F, e ∣ a → e ∣ b → e ∣ g

/-- The fuel-driven Euclid loop computes a greatest common divisor whenever
the fuel exceeds the trimmed length of the second argument. -/
theorem pgcdAux_spec (fuel : ℕ) :
    ∀ (a b : List F), (trimPoly b).length < fuel →
      pIsGCD (toPoly a) (toPoly b) (toPoly (pgcdAux fuel a b)) := by
  induction fuel with
  | zero =>
    intro a b hfuel
    exact absurd hfuel (Nat.not_lt_zero _)
  | succ fuel ih =>
    intro a b hfuel
    by_cases hz : pIsZero b = true
    · have hred : pgcdAux (fuel + 1) a b = trimPoly a := by
        simp only [pgcdAux, if_pos hz]
      have hb0 : toPoly b = 0 := by
        rw [toPoly_eq_zero_iff]
        simpa [pIsZero] using hz
      rw [hred, toPoly_trim, hb0]
      exact ⟨dvd_refl _, dvd_zero _, fun e he _ => he⟩
    · have hbne : trimPoly b ≠ [] := by
        simpa [pIsZero] using hz
      have hred : pgcdAux (fuel + 1) a b = pgcdAux fuel b (pmod a b) := by
        simp only [pgcdAux, if_neg hz]
      obtain ⟨hid, hlen, -⟩ := pdivmod_spec a b hbne
      obtain ⟨h1, h2, h3⟩ := ih b (pmod a b) (by omega)
      rw [hred]
      refine ⟨?_, h1, ?_⟩
      · rw [← hid]
        exact dvd_add (h1.mul_left _) h2
      · intro e hea heb
        apply h3 e heb
        have hrw : toPoly (pmod a b) = toPoly a - toPoly (pdiv a b) * toPoly b := by
          rw [← hid]
          ring
        rw [hrw]
        exact dvd_sub hea (heb.mul_left _)

/-- The executable pgcd is a greatest common divisor. -/
theorem pgcd_spec (a b : List F) :
    pIsGCD (toPoly a) (toPoly b) (toPoly (pgcd a b)) := by
  unfold pgcd
  exact pgcdAux_spec (b.length + a.length + 1) a b
    (by have := length_trim_le b; omega)

/-- When the divisor is nonzero and divides the dividend, pdiv computes the
exact quotient. -/
theorem pdiv_exact (p b : List F) (hb : trimPoly b ≠ []) (hdvd : toPoly b ∣ toPoly p) :
    toPoly (pdiv p b) * toPoly b = toPoly p := by
  obtain ⟨hid, hlen, -⟩ := pdivmod_spec p b hb
  have hrdvd : toPoly b ∣ toPoly (pmod p b) := by
    have hrw : toPoly (pmod p b) = toPoly p - toPoly (pdiv p b) * toPoly b := by
      rw [← hid]
      ring
    rw [hrw]
    exact dvd_sub hdvd (dvd_mul_left _ _)
  have hr0 : toPoly (pmod p b) = 0 := by
    by_contra hne
    have hdegle := Polynomial.degree_le_of_dvd hrdvd hne
    have hrne : trimPoly (pmod p b) ≠ [] := fun h => hne ((toPoly_eq_zero_iff _).mpr h)
    have h1 : (toPoly b).natDegree = (trimPoly b).length - 1 := toPoly_natDegree b hb
    have h2 : (toPoly (pmod p b)).natDegree = (trimPoly (pmod p b)).length - 1 :=
      toPoly_natDegree _ hrne
    have hnat := Polynomial.natDegree_le_natDegree hdegle
    have hbpos : 0 < (trimPoly b).length := List.length_pos.mpr hb
    have hrpos : 0 < (trimPoly (pmod p b)).length := List.length_pos.mpr hrne
    omega
  rw [← hid, hr0, add_zero]

/-- The executable lcm times the executable gcd recovers the product. -/
theorem plcm_mul_pgcd (a b : List F) (hb : trimPoly b ≠ []) :
    toPoly (plcm a b) * toPoly (pgcd a b) = toPoly a * toPoly b := by
  have hg := pgcd_spec a b
  have hgne : toPoly (pgcd a b) ≠ 0 := by
    intro h
    rw [h] at hg
    exact hb ((toPoly_eq_zero_iff b).mp (zero_dvd_iff.mp hg.2.1))
  have hgtrim : trimPoly (pgcd a b) ≠ [] := fun h => hgne ((toPoly_eq_zero_iff _).mpr h)
  have hdvd : toPoly (pgcd a b) ∣ toPoly (pmul a b) := by
    rw [toPoly_pmul]
    exact Dvd.dvd.mul_left hg.2.1 _
  unfold plcm
  rw [pdiv_exact (pmul a b) (pgcd a b) hgtrim hdvd, toPoly_pmul]

/-- The monic normalization of a nonzero polynomial: the result is the input
scaled by the inverse of its leading coefficient, and it is monic. -/
theorem pmonic_spec (p : List F) (h : trimPoly p ≠ []) :
    toPoly (pmonic p) = Polynomial.C (plead p)⁻¹ * toPoly p ∧
      (toPoly (pmonic p)).Monic := by
  have h1 : toPoly (pmonic p) = Polynomial.C (plead p)⁻¹ * toPoly p := by
    rw [pmonic, toPoly_trim, toPoly_pscaleAux]
  refine ⟨h1, ?_⟩
  have h2 : (Polynomial.C (plead p)⁻¹ * toPoly p).leadingCoeff = 1 := by
    rw [Polynomial.leadingCoeff_mul, Polynomial.leadingCoeff_C, toPoly_leadingCoeff p h,
      inv_mul_cancel₀ (plead_ne_zero p h)]
  rw [Polynomial.Monic, h1]
  exact h2

end PolyGcdSpec

section PolyListGcdSpec

open Polynomial

variable {F : Type} [Field F] [DecidableEq F]

theorem toPoly_pOne : toPoly (pOne : List F) = 1 := by
  simp [pOne, toPoly_cons, toPoly_nil]

/-- The fold underlying pgcdList: the result divides the accumulator and all
list entries, and every common divisor divides it. -/
theorem pgcd_foldl_spec (l : List (List F)) :
    ∀ acc : List F,
      (toPoly (l.foldl pgcd acc) ∣ toPoly acc ∧
        ∀ p ∈ l, toPoly (l.foldl pgcd acc) ∣ toPoly p) ∧
      ∀ e : Polynomial F, e ∣ toPoly acc → (∀ p ∈ l, e ∣ toPoly p) →
        e ∣ toPoly (l.foldl pgcd acc) := by
  induction l with
  | nil =>
    intro acc
    exact ⟨⟨dvd_refl _, by simp⟩, fun e he _ => he⟩
  | cons p t ih =>
    intro acc
    simp only [List.foldl_cons]
    obtain ⟨⟨hacc, hall⟩, hmax⟩ := ih (pgcd acc p)
    obtain ⟨hga, hgp, hgmax⟩ := pgcd_spec acc p
    refine ⟨⟨hacc.trans hga, ?_⟩, ?_⟩
    · intro q hq
      rcases List.mem_cons.mp hq with hq | hq
      · rw [hq]
        exact hacc.trans hgp
      · exact hall q hq
    · intro e hea hep
      apply hmax e
      · exact hgmax e hea (hep p (List.mem_cons_self p t))
      · intro q hq
        exact hep q (List.mem_cons_of_mem p hq)

/-- pgcdList computes a greatest common divisor of the interpreted list. -/
theorem pgcdList_spec (l : List (List F)) :
    (∀ p ∈ l, toPoly (pgcdList l) ∣ toPoly p) ∧
      ∀ e : Polynomial F, (∀ p ∈ l, e ∣ toPoly p) → e ∣ toPoly (pgcdList l) := by
  unfold pgcdList
  obtain ⟨⟨_, hall⟩, hmax⟩ := pgcd_foldl_spec l ([] : List F)
  refine ⟨hall, fun e hep => hmax e ?_ hep⟩
  rw [toPoly_nil]
  exact dvd_zero e

/-- plcm of nonzero polynomials is a least common multiple in the
divisibility order. -/
theorem plcm_spec (a b : List F) (ha : trimPoly a ≠ []) (hb : trimPoly b ≠ []) :
    toPoly a ∣ toPoly (plcm a b) ∧ toPoly b ∣ toPoly (plcm a b) ∧
      toPoly (plcm a b) ≠ 0 ∧
      ∀ m : Polynomial F, toPoly a ∣ m → toPoly b ∣ m → toPoly (plcm a b) ∣ m := by
  have hA : toPoly a ≠ 0 := fun h => ha ((toPoly_eq_zero_iff a).mp h)
  have hB : toPoly b ≠ 0 := fun h => hb ((toPoly_eq_zero_iff b).mp h)
  have hprod := plcm_mul_pgcd a b hb
  have hg := pgcd_spec a b
  have hgne : toPoly (pgcd a b) ≠ 0 := by
    intro h
    rw [h] at hg
    exact hB (zero_dvd_iff.mp hg.2.1)
  have hassoc : Associated (toPoly (pgcd a b)) (gcd (toPoly a) (toPoly b)) :=
    associated_of_dvd_dvd (dvd_gcd hg.1 hg.2.1)
      (hg.2.2 _ (gcd_dvd_left _ _) (gcd_dvd_right _ _))
  have h1 : Associated (toPoly (plcm a b) * toPoly (pgcd a b))
      (lcm (toPoly a) (toPoly b) * gcd (toPoly a) (toPoly b)) := by
    rw [hprod, mul_comm (lcm (toPoly a) (toPoly b))]
    exact (gcd_mul_lcm (toPoly a) (toPoly b)).symm
  have hassoc2 : Associated (toPoly (plcm a b)) (lcm (toPoly a) (toPoly b)) :=
    Associated.of_mul_right h1 hassoc hgne
  have hlne : toPoly (plcm a b) ≠ 0 := by
    intro h
    rw [h, zero_mul] at hprod
    exact mul_ne_zero hA hB hprod.symm
  refine ⟨(dvd_lcm_left _ _).trans hassoc2.symm.dvd,
    (dvd_lcm_right _ _).trans hassoc2.symm.dvd, hlne, ?_⟩
  intro m hma hmb
  exact hassoc2.dvd.trans (lcm_dvd hma hmb)

/-- The fold underlying plcmList, for lists of nonzero polynomials. -/
theorem plcm_foldl_spec (l : List (List F)) :
    ∀ acc : List F, trimPoly acc ≠ [] → (∀ p ∈ l, trimPoly p ≠ []) →
      (toPoly (l.foldl plcm acc) ≠ 0 ∧
        toPoly acc ∣ toPoly (l.foldl plcm acc) ∧
        ∀ p ∈ l, toPoly p ∣ toPoly (l.foldl plcm acc)) ∧
      ∀ m : Polynomial F, toPoly acc ∣ m → (∀ p ∈ l, toPoly p ∣ m) →
        toPoly (l.foldl plcm acc) ∣ m := by
  induction l with
  | nil =>
    intro acc hacc _
    exact ⟨⟨fun h => hacc ((toPoly_eq_zero_iff acc).mp h), dvd_refl _, by simp⟩,
      fun m hm _ => hm⟩
  | cons p t ih =>
    intro acc hacc hall
    simp only [List.foldl_cons]
    have hp : trimPoly p ≠ [] := hall p (List.mem_cons_self p t)
    obtain ⟨hl1, hl2, hlne, hlmax⟩ := plcm_spec acc p hacc hp
    have hltrim : trimPoly (plcm acc p) ≠ [] :=
      fun h => hlne ((toPoly_eq_zero_iff _).mpr h)
    obtain ⟨⟨hne, hdacc, hdall⟩, hmax⟩ := ih (plcm acc p) hltrim
      (fun q hq => hall q (List.mem_cons_of_mem p hq))
    refine ⟨⟨hne, hl1.trans hdacc, ?_⟩, ?_⟩
    · intro q hq
      rcases List.mem_cons.mp hq with hq | hq
      · rw [hq]
        exact hl2.trans hdacc
      · exact hdall q hq
    · intro m hm hmall
      apply hmax m
      · exact hlmax m hm (hmall p (List.mem_cons_self p t))
      · intro q hq
        exact hmall q (List.mem_cons_of_mem p hq)

/-- plcmList computes a least common multiple of a list of nonzero
polynomials. -/
theorem plcmList_spec (l : List (List F)) (h : ∀ p ∈ l, trimPoly p ≠ []) :
    toPoly (plcmList l) ≠ 0 ∧ (∀ p ∈ l, toPoly p ∣ toPoly (plcmList l)) ∧
      ∀ m : Polynomial F, (∀ p ∈ l, toPoly p ∣ m) → toPoly (plcmList l) ∣ m := by
  unfold plcmList
  have hone : trimPoly (pOne : List F) ≠ [] := by
    intro hh
    have := toPoly_trim (pOne : List F)
    rw [hh, toPoly_nil, toPoly_pOne] at this
    exact one_ne_zero this.symm
  obtain ⟨⟨hne, _, hdall⟩, hmax⟩ := plcm_foldl_spec l pOne hone h
  refine ⟨hne, hdall, fun m hm => hmax m ?_ hm⟩
  rw [toPoly_pOne]
  exact one_dvd m

/-- Grounding of claim C9's formula for d: for nonzero denominators, the
computed d = pmonic(lcm(dens)) is monic and is a least common multiple of
the denominators in the divisibility order. -/
theorem rational_ideal_d_is_monic_lcm (dens : List (List F))
    (h : ∀ p ∈ dens, trimPoly p ≠ []) :
    (toPoly (pmonic (plcmList dens))).Monic ∧
      (∀ p ∈ dens, toPoly p ∣ toPoly (pmonic (plcmList dens))) ∧
      ∀ m : Polynomial F, (∀ p ∈ dens, toPoly p ∣ m) →
        toPoly (pmonic (plcmList dens)) ∣ m := by
  obtain ⟨hne, hdvd, hmax⟩ := plcmList_spec dens h
  have htrim : trimPoly (plcmList dens) ≠ [] :=
    fun hh => hne ((toPoly_eq_zero_iff _).mpr hh)
  obtain ⟨heq, hmon⟩ := pmonic_spec (plcmList dens) htrim
  have hu : IsUnit (Polynomial.C (plead (plcmList dens))⁻¹) :=
    Polynomial.isUnit_C.mpr
      (isUnit_iff_ne_zero.mpr (inv_ne_zero (plead_ne_zero _ htrim)))
  refine ⟨hmon, ?_, ?_⟩
  · intro p hp
    rw [heq]
    exact (hdvd p hp).mul_left _
  · intro m hm
    rw [heq]
    exact (hu.mul_left_dvd).mpr (hmax m hm)

/-- Grounding of claim C9's formula for g: when the gcd of the numerators is
nonzero, the computed g = pmonic(gcd(nums)) is monic, divides every
numerator, and is divisible by every common divisor of the numerators. -/
theorem rational_ideal_g_is_monic_gcd (nums : List (List F))
    (h : trimPoly (pgcdList nums) ≠ []) :
    (toPoly (pmonic (pgcdList nums))).Monic ∧
      (∀ p ∈ nums, toPoly (pmonic (pgcdList nums)) ∣ toPoly p) ∧
      ∀ e : Polynomial F, (∀ p ∈ nums, e ∣ toPoly p) →
        e ∣ toPoly (pmonic (pgcdList nums)) := by
  obtain ⟨hdvd, hmax⟩ := pgcdList_spec nums
  obtain ⟨heq, hmon⟩ := pmonic_spec _ h
  have hu : IsUnit (Polynomial.C (plead (pgcdList nums))⁻¹) :=
    Polynomial.isUnit_C.mpr
      (isUnit_iff_ne_zero.mpr (inv_ne_zero (plead_ne_zero _ h)))
  refine ⟨hmon, ?_, ?_⟩
  · intro p hp
    rw [heq]
    exact (hu.mul_left_dvd).mpr (hdvd p hp)
  · intro e he
    rw [heq]
    exact (hmax e he).mul_left _

end PolyListGcdSpec

section RationalIdealSemanticSpec

/-- C9: for the maximal order of a rational function field, ideal(*gens) with
at least one nonzero generator returns the principal ideal generated by g/d,
where d is the monic least common multiple of the nonzero generators'
denominators and g is the monic greatest common divisor of the numerators of
d times each nonzero generator - lcm and gcd meant in the divisibility order
of polynomials, witnessed through the interpretation toPoly; when every
generator is zero (or there are none) it returns the zero ideal. -/
theorem rational_order_ideal_spec {F : Type} [Field F] [DecidableEq F]
    (gens0 nz : List (FFElem F)) (d g : List F)
    (hnz : nz = gens0.filter (fun e => ! ffIsZero e))
    (hd : d = pmonic (plcmList (nz.map (fun c => c.den))))
    (hg : g = pmonic (pgcdList (nz.map (fun c => (polyMulFF d c).num)))) :
    (nz = [] → FunctionFieldMaximalOrder_rational_ideal gens0 = ⟨ffZero⟩) ∧
    (nz ≠ [] → FunctionFieldMaximalOrder_rational_ideal gens0 = ⟨reduceFF g d⟩) ∧
    ((∀ e ∈ nz, trimPoly e.den ≠ []) →
      (toPoly d).Monic ∧ (∀ e ∈ nz, toPoly e.den ∣ toPoly d) ∧
        ∀ m : Polynomial F, (∀ e ∈ nz, toPoly e.den ∣ m) → toPoly d ∣ m) ∧
    (trimPoly (pgcdList (nz.map (fun c => (polyMulFF d c).num))) ≠ [] →
      (toPoly g).Monic ∧
        (∀ c ∈ nz, toPoly g ∣ toPoly (polyMulFF d c).num) ∧
        ∀ e : Polynomial F, (∀ c ∈ nz, e ∣ toPoly (polyMulFF d c).num) →
          e ∣ toPoly g) := by
  subst hnz
  subst hd
  subst hg
  refine ⟨?_, ?_, ?_, ?_⟩
  · intro h
    unfold FunctionFieldMaximalOrder_rational_ideal
    simp [h]
  · intro h
    have hlen : ¬ (gens0.filter (fun e => ! ffIsZero e)).length = 0 := by
      simpa [List.length_eq_zero] using h
    unfold FunctionFieldMaximalOrder_rational_ideal
    simp only [if_neg hlen]
  · intro hden
    have hden2 : ∀ p ∈ (gens0.filter (fun e => ! ffIsZero e)).map (fun c => c.den),
        trimPoly p ≠ [] := by
      intro p hp
      rcases List.mem_map.mp hp with ⟨e, he, rfl⟩
      exact hden e he
    obtain ⟨h1, h2, h3⟩ := rational_ideal_d_is_monic_lcm _ hden2
    refine ⟨h1, ?_, ?_⟩
    · intro e he
      exact h2 _ (List.mem_map.mpr ⟨e, he, rfl⟩)
    · intro m hm
      apply h3
      intro p hp
      rcases List.mem_map.mp hp with ⟨e, he, rfl⟩
      exact hm e he
  · intro hne
    obtain ⟨h1, h2, h3⟩ := rational_ideal_g_is_monic_gcd _ hne
    refine ⟨h1, ?_, ?_⟩
    · intro c hc
      exact h2 _ (List.mem_map.mpr ⟨c, hc, rfl⟩)
    · intro e he
      apply h3
      intro p hp
      rcases List.mem_map.mp hp with ⟨c, hc, rfl⟩
      exact he c hc

end RationalIdealSemanticSpec

section RationalIdealSemanticWitness

attribute [local semireducible] Rat.add Rat.mul Rat.sub Rat.inv

/-- C9 witness: at the single generator x over the rationals, the nonzero
generators are [x], the monic lcm of denominators is 1, the monic gcd of
numerators is x, the resulting ideal is generated by x, and the computed d
and g are monic. -/
theorem rational_order_ideal_spec_witness :
    (([ffX (F := ℚ)] : List (FFElem ℚ)) ≠ []) ∧
    (∀ e ∈ ([ffX (F := ℚ)] : List (FFElem ℚ)), trimPoly e.den ≠ []) ∧
    (trimPoly (pgcdList (([ffX (F := ℚ)] : List (FFElem ℚ)).map
      (fun c => (polyMulFF [1] c).num))) ≠ []) ∧
    FunctionFieldMaximalOrder_rational_ideal [ffX (F := ℚ)] =
      ⟨reduceFF [0, 1] [1]⟩ ∧
    (toPoly ([1] : List ℚ)).Monic ∧
    (toPoly ([0, 1] : List ℚ)).Monic :=
  ⟨by decide, by decide, by decide,
    (rational_order_ideal_spec [ffX] [ffX] [1] [0, 1]
      (by decide) (by decide) (by decide)).2.1 (by decide),
    ((rational_order_ideal_spec [ffX] [ffX] [1] [0, 1]
      (by decide) (by decide) (by decide)).2.2.1 (by decide)).1,
    ((rational_order_ideal_spec [ffX] [ffX] [1] [0, 1]
      (by decide) (by decide) (by decide)).2.2.2 (by decide)).1⟩

end RationalIdealSemanticWitness

section PowDegreeSemantics

variable {F : Type} [Field F] [DecidableEq F]

/-- The monomial list pXPow k interprets to X^k, grounding the generator
x^d of the infinite rational order's ideal. -/
theorem toPoly_pXPow (k : ℕ) : toPoly (pXPow k : List F) = Polynomial.X ^ k := by
  rw [pXPow, toPoly_shift]
  have h1 : toPoly ([1] : List F) = 1 := by
    simp [toPoly_cons, toPoly_nil]
  rw [h1, mul_one]

/-- Sage's integer degree agrees with the polynomial degree on nonzero
polynomials and is -1 on zero, grounding the degree difference used by the
infinite rational order's ideal. -/
theorem degreeInt_spec (p : List F) :
    (trimPoly p ≠ [] → degreeInt p = ((toPoly p).natDegree : Int)) ∧
      (trimPoly p = [] → degreeInt p = -1) := by
  constructor
  · intro h
    have h1 := toPoly_natDegree p h
    have h2 : 0 < (trimPoly p).length := List.length_pos.mpr h
    unfold degreeInt
    omega
  · intro h
    unfold degreeInt
    rw [h]
    rfl

end PowDegreeSemantics

section FractionSemantics

variable {F : Type} [Field F] [DecidableEq F]

/-- The zero test on field elements reads the interpreted numerator. -/
theorem ffIsZero_spec (e : FFElem F) : ffIsZero e = true ↔ toPoly e.num = 0 := by
  rw [ffIsZero, pIsZero, beq_iff_eq, toPoly_eq_zero_iff]

/-- The fraction constructor preserves the represented fraction (as a
cross-multiplication identity) and produces a monic denominator, for a
nonzero denominator input. -/
theorem reduceFF_spec (n d : List F) (hd : trimPoly d ≠ []) :
    toPoly (reduceFF n d).num * toPoly d = toPoly (reduceFF n d).den * toPoly n ∧
      (toPoly (reduceFF n d).den).Monic := by
  have hD : toPoly d ≠ 0 := fun h => hd ((toPoly_eq_zero_iff d).mp h)
  obtain ⟨hgn, hgd, -⟩ := pgcd_spec n d
  have hg0ne : toPoly (pgcd n d) ≠ 0 := by
    intro h
    rw [h] at hgd
    exact hD (zero_dvd_iff.mp hgd)
  have hgtrim : trimPoly (pgcd n d) ≠ [] := fun h => hg0ne ((toPoly_eq_zero_iff _).mpr h)
  have hn1 : toPoly (pdiv n (pgcd n d)) * toPoly (pgcd n d) = toPoly n :=
    pdiv_exact n (pgcd n d) hgtrim hgn
  have hd1 : toPoly (pdiv d (pgcd n d)) * toPoly (pgcd n d) = toPoly d :=
    pdiv_exact d (pgcd n d) hgtrim hgd
  have hd1ne : toPoly (pdiv d (pgcd n d)) ≠ 0 := by
    intro h
    rw [h, zero_mul] at hd1
    exact hD hd1.symm
  have hd1trim : trimPoly (pdiv d (pgcd n d)) ≠ [] :=
    fun h => hd1ne ((toPoly_eq_zero_iff _).mpr h)
  have hcne : ((plead (pdiv d (pgcd n d)))⁻¹ : F) ≠ 0 :=
    inv_ne_zero (plead_ne_zero _ hd1trim)
  have hnum : (reduceFF n d).num =
      trimPoly (pscaleAux ((plead (pdiv d (pgcd n d)))⁻¹) (pdiv n (pgcd n d))) := rfl
  have hden : (reduceFF n d).den =
      trimPoly (pscaleAux ((plead (pdiv d (pgcd n d)))⁻¹) (pdiv d (pgcd n d))) := rfl
  have hnum2 : toPoly (reduceFF n d).num =
      Polynomial.C ((plead (pdiv d (pgcd n d)))⁻¹) * toPoly (pdiv n (pgcd n d)) := by
    rw [hnum, toPoly_trim, toPoly_pscaleAux]
  have hden2 : toPoly (reduceFF n d).den =
      Polynomial.C ((plead (pdiv d (pgcd n d)))⁻¹) * toPoly (pdiv d (pgcd n d)) := by
    rw [hden, toPoly_trim, toPoly_pscaleAux]
  constructor
  · have hcross : toPoly (pdiv n (pgcd n d)) * toPoly d =
        toPoly (pdiv d (pgcd n d)) * toPoly n := by
      rw [← hd1, ← hn1]
      ring
    rw [hnum2, hden2, mul_assoc, hcross, mul_assoc]
  · rw [hden2]
    have h2 : (Polynomial.C ((plead (pdiv d (pgcd n d)))⁻¹) *
        toPoly (pdiv d (pgcd n d))).leadingCoeff = 1 := by
      rw [Polynomial.leadingCoeff_mul, Polynomial.leadingCoeff_C,
        toPoly_leadingCoeff _ hd1trim, inv_mul_cancel₀ (plead_ne_zero _ hd1trim)]
    exact h2

/-- The product of a polynomial with a field element represents the product
of the fractions, with a monic denominator. -/
theorem polyMulFF_spec (d : List F) (c : FFElem F) (hc : trimPoly c.den ≠ []) :
    toPoly (polyMulFF d c).num * toPoly c.den =
      toPoly (polyMulFF d c).den * (toPoly d * toPoly c.num) ∧
      (toPoly (polyMulFF d c).den).Monic := by
  obtain ⟨h1, h2⟩ := reduceFF_spec (pmul d c.num) c.den hc
  rw [toPoly_pmul] at h1
  exact ⟨h1, h2⟩

end FractionSemantics
